import Mathlib

/-!
Verification of the latex2pdfa compilation pipeline core.

Text is modelled as `List Char`.  The source files embedded here are
`latex2pdfa/latex2pdfa.py` (class `Latex2pdfa`) and `latex2pdfa/utils.py`
(function `run_process`).  Machine strings, file contents and paths are all
`List Char`; the file system is an association list from paths to contents.
-/

set_option maxHeartbeats 1000000
set_option maxRecDepth 100000

/-! ### Process Runner (`utils.run_process`, captured mode) -/

/-- Signature text searched by `re.search(r'Fatal error[\S\n ]+', stdout)`. -/
def fatalSig : List Char := "Fatal error".toList

/-- Character class `[\S\n ]` of the fatal-error pattern: any character that is
not whitespace, plus newline and space; i.e. everything except the remaining
core whitespace characters (tab, carriage return, vertical tab, form feed). -/
def fatalClassChar (c : Char) : Bool :=
  !(c = '\t' || c = '\r' || c = '\x0b' || c = '\x0c')

/-- Leftmost match of `Fatal error[\S\n ]+` in the scanned text: at each
position, if the literal `Fatal error` is present and is followed by at least
one class character, the match is the literal plus the maximal (greedy) run of
class characters; otherwise scanning continues at the next position. -/
def fatalMatchGo : List Char → Option (List Char)
  | [] => none
  | c :: rest =>
    if fatalSig.isPrefixOf (c :: rest) then
      let run := ((c :: rest).drop 11).takeWhile fatalClassChar
      if run.isEmpty then fatalMatchGo rest else some (fatalSig ++ run)
    else fatalMatchGo rest

/-- Result of `re.search(r'Fatal error[\S\n ]+', stdout)`: the matched excerpt
`match.group()`, when the pattern matches. -/
def fatalMatch (stdout : List Char) : Option (List Char) := fatalMatchGo stdout

/-- Successful outcome of `run_process` in captured mode: either
`result.stdout.decode('utf-8')` (when stdout was non-empty), or the bare
`CompletedProcess` value returned by the final `return result`. -/
inductive ProcResult where
  | out (stdout : List Char)
  | completed
deriving DecidableEq

/-- Typed failure of `run_process`: the `CalledProcessError` raised with the
fatal-error message, or the one raised with the captured stderr. -/
inductive ProcErr where
  | fatal (returncode : Int) (msg : List Char)
  | nonZeroExit (returncode : Int) (stderr : List Char)
deriving DecidableEq

/-- Message text prepended to the matched fatal-error excerpt. -/
def errPre : List Char := "pdflatex compilation error: ".toList

/-- Captured (non-streaming) branch of `utils.run_process`: stdout and stderr
are fully captured, `check=False`, and the result depends on the captured
buffers only.  `returncode` is recorded inside a raised error but never
branched on. -/
def run_process_captured (stdout stderr : List Char) (returncode : Int)
    (ignore_errors : Bool) : Except ProcErr ProcResult :=
  if stdout ≠ [] then
    match fatalMatch stdout with
    | some m => .error (.fatal returncode (errPre ++ m))
    | none => .ok (.out stdout)
  else if stderr ≠ [] ∧ ignore_errors = false then
    .error (.nonZeroExit returncode stderr)
  else
    .ok .completed

/-- Classification of a `run_process` outcome as success, used to state that
the classification is independent of the exit code. -/
def runOk : Except ProcErr ProcResult → Bool
  | .ok _ => true
  | .error _ => false

/-! ### Pipeline Controller trace (`Latex2pdfa.run` / `generate_pdf`) -/

/-- Stages and Process-Runner invocations of `Latex2pdfa.run`, in the order the
method issues them. -/
inductive Stage where
  | setup
  | addMetadata
  | patch
  | compile
  | resolveRefs
  | convert
  | fixMeta
  | linearize
  | cleanup
  | verify
deriving DecidableEq, BEq

/-- Invocations issued by `generate_pdf`: pdflatex, bibtex, pdflatex, pdflatex. -/
def generate_pdf_trace : List Stage := [.compile, .resolveRefs, .compile, .compile]

/-- Trace of one `Latex2pdfa.run` call: setup, optional metadata step, patch,
the four compile-stage invocations, ghostscript conversion, exiftool metadata
repair, qpdf linearization, optional cleanup, optional verification. -/
def run_trace (ignore_metadata clean verify : Bool) : List Stage :=
  [.setup] ++ (if ignore_metadata then [] else [.addMetadata]) ++ [.patch]
    ++ generate_pdf_trace ++ [.convert, .fixMeta, .linearize]
    ++ (if clean then [.cleanup] else []) ++ (if verify then [.verify] else [])

/-! ### Patch Engine (`Latex2pdfa.patch_latex`) -/

/-- Value of `self.script_name` (`__file__ = 'latex2pdfa'`), the sentinel whose
presence as a substring marks a document as already patched. -/
def script_name : List Char := "latex2pdfa".toList

/-- Value of the module-level `comment_start`: 30 percent signs, the script
name, 30 percent signs, then a newline. -/
def comment_start : List Char :=
  List.replicate 30 '%' ++ script_name ++ List.replicate 30 '%' ++ ['\n']

/-- Value of the module-level `comment_end`: as many percent signs as
`comment_start` has characters, then a newline. -/
def comment_end : List Char := List.replicate comment_start.length '%' ++ ['\n']

/-- The three `cmds_before_documentclass` directives. -/
def cmds_before_documentclass : List (List Char) :=
  ["\\pdfobjcompresslevel=0".toList,
   "\\pdfminorversion=7".toList,
   "\\pdfinclusioncopyfonts=1".toList]

/-- Conformance configuration: the single characters of
`conformance_level_version` and `conformance_level` as they are formatted into
`preambule_cmds[0]`. -/
structure Cfg where
  version : Char
  level : Char
deriving DecidableEq

/-- The text `preambule_cmds[0][1:]`, i.e. the pdfx package invocation without
its leading backslash; this is also the replacement string of the `re.sub`
call in the re-patch path. -/
def pdfx_args (cfg : Cfg) : List Char :=
  "usepackage[a-".toList ++ [cfg.version, cfg.level] ++ "]{pdfx}".toList

/-- The full after-declaration directive `preambule_cmds[0]`. -/
def preambule_cmd (cfg : Cfg) : List Char := '\\' :: pdfx_args cfg

/-- Literal part `usepackage` of the pattern `usepackage.*{pdfx}`. -/
def uPat : List Char := "usepackage".toList

/-- Literal part `{pdfx}` of the pattern `usepackage.*{pdfx}`. -/
def qPat : List Char := "{pdfx}".toList

/-- Positions of a pattern inside a text: indices `k` at which `pat` occurs as
a leading substring of `s.drop k`.  Since the patterns used are non-empty, the
range bound `s.length` loses nothing. -/
def poss (pat s : List Char) : List Nat :=
  (List.range s.length).filter (fun k => pat.isPrefixOf (s.drop k))

/-- Largest element of a list of naturals, if any. -/
def natMax : List Nat → Option Nat
  | [] => none
  | k :: ks =>
    match natMax ks with
    | none => some k
    | some m => some (max k m)

/-- Leftmost match of the regular expression `usepackage.*{pdfx}` inside a text
without newlines, as (start, end) indices.  The dot does not match a newline
and both literals are newline free, so on such a text a match starts at the
leftmost occurrence of `usepackage` that still has an occurrence of `{pdfx}`
starting at least 10 characters later, and the greedy `.*` extends the match to
the end of the last occurrence of `{pdfx}`. -/
def findMatch (s : List Char) : Option (Nat × Nat) :=
  match natMax (poss qPat s) with
  | none => none
  | some jm =>
    match (poss uPat s).find? (fun i => decide (i + 10 ≤ jm)) with
    | none => none
    | some i => some (i, jm + 6)

/-- Global substitution of `usepackage.*{pdfx}` by `pdfx_args cfg` on a
newline-free text, scanning left to right and resuming after each replaced
match, exactly as `re.sub` does.  The fuel argument only bounds the number of
scan steps; every match consumes at least six characters, so `s.length + 1`
steps always suffice. -/
def subSegFuel (cfg : Cfg) : Nat → List Char → List Char
  | 0, s => s
  | fuel + 1, s =>
    match findMatch s with
    | none => s
    | some (i, e) => s.take i ++ pdfx_args cfg ++ subSegFuel cfg fuel (s.drop e)

/-- Global `re.sub('usepackage.*{pdfx}', pdfx_args cfg, seg)` on one
newline-free segment. -/
def subSeg (cfg : Cfg) (s : List Char) : List Char := subSegFuel cfg (s.length + 1) s

/-- Segments of a text between newline characters.  `splitNl "a\nb" = [a, b]`,
and a trailing newline yields a final empty segment. -/
def splitNl : List Char → List (List Char)
  | [] => [[]]
  | c :: rest =>
    if c = '\n' then [] :: splitNl rest
    else
      match splitNl rest with
      | [] => [[c]]
      | seg :: segs => (c :: seg) :: segs

/-- Inverse of `splitNl`: interleaves a newline between the segments. -/
def joinNl : List (List Char) → List Char
  | [] => []
  | [seg] => seg
  | seg :: segs => seg ++ '\n' :: joinNl segs

/-- The statement `re.sub('usepackage.*{pdfx}', self.preambule_cmds[0][1:],
text)` of the re-patch path.  No match of the pattern can contain a newline,
and matches are found left to right, so the global substitution equals the
per-segment substitution applied between the newlines. -/
def re_sub_pdfx (cfg : Cfg) (t : List Char) : List Char :=
  joinNl ((splitNl t).map (subSeg cfg))

/-- Python substring containment `pat in s` for a non-empty pattern. -/
def hasSub (pat s : List Char) : Bool := !(poss pat s).isEmpty

/-- The check `self.script_name in content` deciding between the re-patch and
the fresh-patch path. -/
def has_marker (t : List Char) : Bool := hasSub script_name t

/-- Helper for `linesOf`, carrying the reversed current line. -/
def linesOfGo : List Char → List Char → List (List Char)
  | [], acc => if acc.isEmpty then [] else [acc.reverse]
  | c :: rest, acc =>
    if c = '\n' then (acc.reverse ++ ['\n']) :: linesOfGo rest []
    else linesOfGo rest (c :: acc)

/-- Python `file.readlines()`: the lines of a text, each keeping its trailing
newline; a last line without newline is kept, and an empty text has no lines. -/
def linesOf (t : List Char) : List (List Char) := linesOfGo t []

/-- Keyword `documentclass` checked by `if 'documentclass' in line`. -/
def dcPat : List Char := "documentclass".toList

/-- Block written at the top of a freshly patched file: `comment_start`, each
command of `cmds_before_documentclass` followed by a newline, `comment_end`. -/
def before_block : List Char :=
  comment_start ++ (cmds_before_documentclass.map (fun c => c ++ ['\n'])).flatten
    ++ comment_end

/-- Block written after a `documentclass` line: `comment_start`, the
`preambule_cmds` directive followed by a newline, `comment_end`. -/
def after_block (cfg : Cfg) : List Char :=
  comment_start ++ (preambule_cmd cfg ++ ['\n']) ++ comment_end

/-- Body written by the fresh-patch loop `for line in lines`: each original
line verbatim, and `after_block` appended after a line whenever that line
contains the keyword. -/
def body_text (cfg : Cfg) : List (List Char) → List Char
  | [] => []
  | line :: rest =>
    line ++ (if hasSub dcPat line then after_block cfg else []) ++ body_text cfg rest

/-- Content written to the source file by the fresh-patch path of
`patch_latex`, from the original content. -/
def fresh_text (cfg : Cfg) (orig : List Char) : List Char :=
  before_block ++ body_text cfg (linesOf orig)

/-- Modelled from the spec: the fresh-patch body as §4.2 of the specification
words it, with the after-declaration block interleaved immediately after the
first line containing the keyword only, and all later lines copied verbatim.
Used solely for comparison against `body_text`. -/
def spec_body_text (cfg : Cfg) : List (List Char) → List Char
  | [] => []
  | line :: rest =>
    if hasSub dcPat line then line ++ after_block cfg ++ rest.flatten
    else line ++ spec_body_text cfg rest

/-- Modelled from the spec: the whole freshly patched content as the
specification describes it; comparison definition for `fresh_text`. -/
def spec_fresh_text (cfg : Cfg) (orig : List Char) : List Char :=
  before_block ++ spec_body_text cfg (linesOf orig)

/-! ### File system model -/

/-- A file system: an association list from paths to contents. -/
abbrev Fs := List (List Char × List Char)

/-- Content of a path, if present. -/
def lookupFs : Fs → List Char → Option (List Char)
  | [], _ => none
  | (q, v) :: rest, p => if q = p then some v else lookupFs rest p

/-- Write a content at a path, overwriting an existing entry or appending a
new one. -/
def writeFs : Fs → List Char → List Char → Fs
  | [], p, v => [(p, v)]
  | (q, w) :: rest, p, v =>
    if q = p then (q, v) :: rest else (q, w) :: writeFs rest p v

/-- Suffix appended by `shutil.move(main_tex_file, main_tex_file + ".backup")`. -/
def backup_suffix : List Char := ".backup".toList

/-- Effect of `Latex2pdfa.patch_latex` on the file system.  If the source file
contains the sentinel, only the `re.sub` rewrite is written back.  Otherwise
the original is moved to the backup path and the freshly patched content is
written at the original path.  A missing source file gives `none` (the Python
code would raise an `IOError`). -/
def patch_latex (cfg : Cfg) (texPath : List Char) (fs : Fs) : Option Fs :=
  match lookupFs fs texPath with
  | none => none
  | some content =>
    if has_marker content then
      some (writeFs fs texPath (re_sub_pdfx cfg content))
    else
      some (writeFs (writeFs fs (texPath ++ backup_suffix) content) texPath
        (fresh_text cfg content))

/-- The marker line as a newline-separated segment: `comment_start` without its
trailing newline. -/
def marker_line : List Char :=
  List.replicate 30 '%' ++ script_name ++ List.replicate 30 '%'

/-! ### Cleanup Sweep (`Latex2pdfa.clean_files`) -/

/-- A directory entry as seen by the sweep: its name and its `Path.suffix`. -/
structure DirFile where
  name : List Char
  suffix : List Char
deriving DecidableEq

/-- The fixed extension set `aux_files_ext` of `clean_files`. -/
def aux_files_ext : List (List Char) :=
  [".aux".toList, ".bbl".toList, ".blg".toList,
   ".toc".toList, ".out".toList, ".log".toList]

/-- Whether the sweep selects a file for deletion. -/
def is_aux (f : DirFile) : Bool := aux_files_ext.contains f.suffix

/-- The `for file in directory.iterdir()` loop of `clean_files` under the
single surrounding `try`: each selected file is removed in turn, and the first
failing removal raises, ending the loop.  `failsOn` tells which removals raise.
Returns the names actually removed and whether an exception was raised. -/
def clean_sweep (failsOn : List Char → Bool) : List DirFile → List (List Char) × Bool
  | [] => ([], false)
  | f :: rest =>
    if is_aux f then
      if failsOn f.name then ([], true)
      else
        let r := clean_sweep failsOn rest
        (f.name :: r.1, r.2)
    else clean_sweep failsOn rest

/-- Whole `clean_files` body: the directory loop, then the removal of the
compiled document, all inside one `try` whose handler logs a single error and
returns normally.  Returns the removed names and whether the error branch was
taken. -/
def clean_files (failsOn : List Char → Bool) (dirFiles : List DirFile)
    (compiled : List Char) : List (List Char) × Bool :=
  let r := clean_sweep failsOn dirFiles
  if r.2 then (r.1, true)
  else if failsOn compiled then (r.1, true)
  else (r.1 ++ [compiled], false)

/-! ### Configuration validation (`Latex2pdfa.__init__`) -/

/-- Failure modes of `Latex2pdfa.__init__`: the two `assert` statements and
the `sys.exit(1)` taken when verification is requested without a veraPDF
path. -/
inductive InitErr where
  | invalidLevel
  | invalidVersion
  | missingVerapdf
deriving DecidableEq

/-- Effect of `Latex2pdfa.__init__` as far as validation and side effects go:
the level assertion, then the version assertion, then `os.makedirs(output_dir,
exist_ok=True)`, then (at the end of the constructor) the verify/veraPDF
check.  The second component records whether the output directory was created,
i.e. whether a file-system side effect happened. -/
def latex2pdfa_init (level : List Char) (version : Int) (verify : Bool)
    (verapdf_path : Option (List Char)) (outputDirPresent : Bool) :
    Except InitErr Unit × Bool :=
  if ¬ (level = "a".toList ∨ level = "b".toList ∨ level = "u".toList) then
    (.error .invalidLevel, false)
  else if ¬ (version = 1 ∨ version = 2 ∨ version = 3) then
    (.error .invalidVersion, false)
  else
    let dirCreated := !outputDirPresent
    if verify && verapdf_path.isNone then (.error .missingVerapdf, dirCreated)
    else (.ok (), dirCreated)

/-! ### Compliance Report Parser (`Latex2pdfa.verify_compliance`) -/

mutual
/-- An XML element: tag, attribute list, children.  The children are an
`XmlForest` so that traversals are structural. -/
inductive Xml where
  | node (tag : String) (attrs : List (String × String)) (children : XmlForest)
/-- A forest of XML elements. -/
inductive XmlForest where
  | nil
  | cons (x : Xml) (xs : XmlForest)
end

/-- Tag of an element. -/
def Xml.tag : Xml → String
  | .node t _ _ => t

/-- Attributes of an element. -/
def Xml.attrs : Xml → List (String × String)
  | .node _ a _ => a

/-- Children of an element. -/
def Xml.children : Xml → XmlForest
  | .node _ _ c => c

/-- `element.get(key)`: attribute lookup, `None` when absent. -/
def getAttr (x : Xml) (key : String) : Option String :=
  match x.attrs.find? (fun p => p.1 == key) with
  | none => none
  | some p => some p.2

mutual
/-- Preorder search for a tag below or at an element: the element itself, then
its subtrees in order. -/
def findXml (t : String) : Xml → Option Xml
  | .node tag attrs cs =>
    if tag == t then some (.node tag attrs cs) else findForest t cs
/-- Preorder walk of a forest.  `findForest t e.children` is ElementTree's
`e.find('.//t')`: the first descendant with the tag in document order, the
element itself excluded. -/
def findForest (t : String) : XmlForest → Option Xml
  | .nil => none
  | .cons x xs =>
    match findXml t x with
    | some r => some r
    | none => findForest t xs
end

/-- The Compliance Verdict data extracted by `verify_compliance`: the
compliance flag (`isCompliant == 'true'`) and the raw attribute values read
from the report. -/
structure Verdict where
  isCompliant : Bool
  statement : Option String
  profileName : Option String
  failedChecks : Option String
  passedChecks : Option String
deriving DecidableEq

/-- Outcome of the parsing part of `verify_compliance`: a verdict, or the
uncaught Python `AttributeError` raised by calling `.get`/`.find` on the
`None` returned by a failed `find`. -/
inductive VerifyOutcome where
  | parsed (v : Verdict)
  | attributeErr
deriving DecidableEq

/-- Parsing part of `verify_compliance`: locate `.//validationReport` from the
document root, read its attributes, locate `.//details` below it, read the
check counters.  When either `find` returns `None`, the subsequent attribute
access raises `AttributeError`. -/
def verify_compliance_parse (root : Xml) : VerifyOutcome :=
  match findForest "validationReport" root.children with
  | none => .attributeErr
  | some summary =>
    match findForest "details" summary.children with
    | none => .attributeErr
    | some details =>
      .parsed
        { isCompliant := getAttr summary "isCompliant" == some "true"
          statement := getAttr summary "statement"
          profileName := getAttr summary "profileName"
          failedChecks := getAttr details "failedChecks"
          passedChecks := getAttr details "passedChecks" }

/-! ### Concrete inputs used by counterexamples and witnesses -/

/-- Configuration of the end-to-end scenario: version `1`, level `b`. -/
def cfg0 : Cfg := ⟨'1', 'b'⟩

/-- A document that contains the sentinel and a body comment line matching the
pdfx pattern. -/
def docA : List Char := "latex2pdfa\n%usepackage[x]{pdfx}!\n".toList

/-- A document whose only occurrence of the sentinel lies inside the matched
span of the pdfx pattern. -/
def docB : List Char := "\\usepackage{latex2pdfa}{pdfx}\n".toList

/-- A source path used by file-system examples. -/
def texP : List Char := "thesis.tex".toList

/-- A file system holding `docB` at `texP`. -/
def fsB : Fs := [(texP, docB)]

/-- An unpatched document with two lines containing `documentclass`. -/
def orig0 : List Char := "\\documentclass{article}\nnew documentclass line\n".toList

/-- First line of `orig0`, with its newline. -/
def orig0_line1 : List Char := "\\documentclass{article}\n".toList

/-- Second line of `orig0`, with its newline. -/
def orig0_line2 : List Char := "new documentclass line\n".toList

/-- An already-patched document used by witnesses: the sentinel is present on
a line of its own and a pdfx directive with stale parameters follows. -/
def docW : List Char := "latex2pdfa\n\\usepackage[a-2u]{pdfx}\nbody\n".toList

/-- A directory listing with two intermediate files. -/
def filesEx : List DirFile :=
  [⟨"a.aux".toList, ".aux".toList⟩, ⟨"b.log".toList, ".log".toList⟩]

/-- A removal-failure oracle that fails exactly on `a.aux`. -/
def failsA : List Char → Bool := fun n => n == "a.aux".toList

/-- A veraPDF report whose validation-report node lacks the details node. -/
def reportMissingDetails : Xml :=
  .node "processorResult" []
    (.cons (.node "validationReport" [("isCompliant", "false")] .nil) .nil)

/-- The details node of the well-formed report example. -/
def dtNode : Xml :=
  .node "details" [("passedChecks", "42"), ("failedChecks", "0")] .nil

/-- The validation-report node of the well-formed report example. -/
def vrNode : Xml :=
  .node "validationReport"
    [("profileName", "PDF/A-1B"), ("statement", "PDF file is compliant"),
     ("isCompliant", "true")]
    (.cons dtNode .nil)

/-- A well-formed veraPDF report with a compliant verdict. -/
def wellFormedReport : Xml := .node "processorResult" [] (.cons vrNode .nil)

/-! ### Helper lemmas -/

/-- An empty captured stdout never matches the fatal-error pattern. -/
lemma fatalMatch_nil : fatalMatch [] = none := rfl

/-- A fatal-error match forces the captured stdout to be non-empty. -/
lemma fatalMatch_ne_nil {s : List Char} {m : List Char} (h : fatalMatch s = some m) :
    s ≠ [] := by
  intro he
  subst he
  simp [fatalMatch, fatalMatchGo] at h

/-! ### C3: fatal-error detection in captured mode -/

/-- C3: in captured (non-streaming) mode, whenever the captured stdout matches
the fatal compiler error signature `Fatal error...`, `run_process` fails with
the typed `CalledProcessError` carrying the matched excerpt, for every exit
code (including zero), every stderr content, and even when errors are
explicitly ignored. -/
theorem C3_fatal_error_detected (stdout stderr : List Char) (returncode : Int)
    (ignore_errors : Bool) (m : List Char) (h : fatalMatch stdout = some m) :
    run_process_captured stdout stderr returncode ignore_errors
      = .error (.fatal returncode (errPre ++ m)) := by
  have hne : stdout ≠ [] := fatalMatch_ne_nil h
  simp [run_process_captured, hne, h]

/-- Witness: the theorem applied at a concrete fatal stdout with exit code 0. -/
theorem C3_fatal_error_detected_witness :
    run_process_captured "Fatal error occurred".toList [] 0 false
      = .error (.fatal 0 (errPre ++ "Fatal error occurred".toList)) :=
  C3_fatal_error_detected _ _ _ _ _ (by decide)

/-! ### C4: stderr handling in captured mode -/

/-- C4 counterexample: the claim asserts that whenever the captured stdout does
not match the fatal signature, a non-empty stderr (with errors not ignored)
makes the call fail; at stdout `"All good"` and stderr `"warning"` the code
returns the stdout as success instead, because the stderr check is only
reached when stdout is empty. -/
theorem C4_counterexample :
    ¬ (∀ (stdout stderr : List Char) (rc : Int),
        fatalMatch stdout = none → stderr ≠ [] →
        ∃ e, run_process_captured stdout stderr rc false = Except.error e) := by
  intro h
  rcases h "All good".toList "warning".toList 0 (by decide) (by decide) with ⟨e, he⟩
  have h2 : run_process_captured "All good".toList "warning".toList 0 false
      = Except.ok (ProcResult.out "All good".toList) := rfl
  rw [h2] at he
  exact Except.noConfusion he

/-- C4 amended: the stderr check applies only when the captured stdout is
empty: then a non-empty stderr with errors not ignored fails with the typed
error carrying stderr; a non-empty stdout without a fatal match is returned as
success without consulting stderr. -/
theorem C4_stderr_check (stdout stderr : List Char) (rc : Int) :
    (stdout = [] → stderr ≠ [] →
      run_process_captured stdout stderr rc false = .error (.nonZeroExit rc stderr))
    ∧ (stdout ≠ [] → fatalMatch stdout = none →
      run_process_captured stdout stderr rc false = .ok (.out stdout)) := by
  constructor
  · intro h1 h2
    subst h1
    simp [run_process_captured, h2]
  · intro h1 h2
    simp [run_process_captured, h1, h2]

/-- Witness: both branches of the amended statement at concrete inputs. -/
theorem C4_stderr_check_witness :
    run_process_captured [] "oops".toList 2 false
      = Except.error (ProcErr.nonZeroExit 2 "oops".toList)
    ∧ run_process_captured "log text".toList "oops".toList 0 false
      = Except.ok (ProcResult.out "log text".toList) :=
  ⟨(C4_stderr_check [] "oops".toList 2).1 rfl (by decide),
   (C4_stderr_check "log text".toList "oops".toList 0).2 (by decide) (by decide)⟩

/-! ### C10: the exit code is never consulted in captured mode -/

/-- C10: in captured mode the Process Runner never branches on the child's
exit code: a non-empty stdout without fatal match is returned as success for
every exit code and stderr; a non-zero exit with empty stdout and stderr is
success as well; and the success/failure classification of any invocation is
unchanged when only the exit code changes. -/
theorem C10_exit_code_never_consulted (stdout stderr : List Char) (rc rc2 : Int)
    (ignore_errors : Bool) :
    (stdout ≠ [] → fatalMatch stdout = none →
      run_process_captured stdout stderr rc ignore_errors = .ok (.out stdout))
    ∧ (rc ≠ 0 → stdout = [] → stderr = [] →
      run_process_captured stdout stderr rc ignore_errors = .ok .completed)
    ∧ runOk (run_process_captured stdout stderr rc ignore_errors)
        = runOk (run_process_captured stdout stderr rc2 ignore_errors) := by
  refine ⟨?_, ?_, ?_⟩
  · intro h1 h2
    simp [run_process_captured, h1, h2]
  · intro _ h2 h3
    subst h2; subst h3
    simp [run_process_captured]
  · by_cases h : stdout = []
    · subst h
      by_cases h2 : stderr ≠ [] ∧ ignore_errors = false <;>
        simp [run_process_captured, h2, runOk]
    · cases hm : fatalMatch stdout <;> simp [run_process_captured, h, hm, runOk]

/-- Witness: success with non-zero exit code and non-empty stderr, and success
with non-zero exit code and empty captured output. -/
theorem C10_exit_code_never_consulted_witness :
    run_process_captured "pages written".toList "wrn".toList 3 false
      = Except.ok (ProcResult.out "pages written".toList)
    ∧ run_process_captured [] [] 5 false = Except.ok ProcResult.completed :=
  ⟨(C10_exit_code_never_consulted "pages written".toList "wrn".toList 3 0 false).1
      (by decide) (by decide),
   (C10_exit_code_never_consulted [] [] 5 0 false).2.1 (by decide) rfl rfl⟩

/-! ### C5: stage ordering -/

/-- C5: for every flag combination, one `run` issues the patch stage exactly
once and the conversion stage exactly once, and the invocations strictly
between them are exactly the four compile-stage calls, in the order
compile, resolve, compile, compile. -/
theorem C5_stage_ordering (ignore_metadata clean verify : Bool) :
    (run_trace ignore_metadata clean verify).count .patch = 1
    ∧ (run_trace ignore_metadata clean verify).count .convert = 1
    ∧ ((run_trace ignore_metadata clean verify).dropWhile
          (fun s => s != Stage.patch)).tail.takeWhile (fun s => s != Stage.convert)
        = [.compile, .resolveRefs, .compile, .compile] := by
  cases ignore_metadata <;> cases clean <;> cases verify <;> decide

/-! ### File-system lemmas and C6 -/

/-- Looking up the path just written yields the written content. -/
lemma lookupFs_writeFs_same (fs : Fs) (p v : List Char) :
    lookupFs (writeFs fs p v) p = some v := by
  induction fs with
  | nil => simp [writeFs, lookupFs]
  | cons e rest ih =>
    obtain ⟨q, w⟩ := e
    by_cases h : q = p <;> simp [writeFs, lookupFs, h, ih]

/-- Looking up a different path is unaffected by a write. -/
lemma lookupFs_writeFs_other (fs : Fs) (p v q : List Char) (h : q ≠ p) :
    lookupFs (writeFs fs p v) q = lookupFs fs q := by
  have h2 : p ≠ q := fun he => h he.symm
  induction fs with
  | nil => simp [writeFs, lookupFs, h2]
  | cons e rest ih =>
    obtain ⟨r, w⟩ := e
    by_cases hr : r = p
    · subst hr
      simp [writeFs, lookupFs, h2]
    · simp [writeFs, lookupFs, hr, ih]

/-- Writing twice at the same path keeps only the second content. -/
lemma writeFs_writeFs_same (fs : Fs) (p v w : List Char) :
    writeFs (writeFs fs p v) p w = writeFs fs p w := by
  induction fs with
  | nil => simp [writeFs]
  | cons e rest ih =>
    obtain ⟨q, u⟩ := e
    by_cases h : q = p <;> simp [writeFs, h, ih]

/-- A path never equals itself with the backup suffix appended. -/
lemma ne_backup (p : List Char) : p ≠ p ++ backup_suffix := by
  intro h
  have := congrArg List.length h
  simp [backup_suffix] at this

/-- C6: every fresh-patch run (sentinel absent) moves the original content to
the path obtained by appending `.backup`, so the backup's content equals the
original exactly; every re-patch run (sentinel present) only rewrites the
source file, so no backup is created and an existing backup file keeps its
previous content. -/
theorem C6_backup_invariant (cfg : Cfg) (texPath : List Char) (fs : Fs)
    (content : List Char) (h : lookupFs fs texPath = some content) :
    (has_marker content = false →
      ∀ fs2, patch_latex cfg texPath fs = some fs2 →
        lookupFs fs2 (texPath ++ backup_suffix) = some content
        ∧ lookupFs fs2 texPath = some (fresh_text cfg content))
    ∧ (has_marker content = true →
      ∀ fs2, patch_latex cfg texPath fs = some fs2 →
        lookupFs fs2 (texPath ++ backup_suffix)
          = lookupFs fs (texPath ++ backup_suffix)
        ∧ lookupFs fs2 texPath = some (re_sub_pdfx cfg content)) := by
  constructor
  · intro hm fs2 h2
    rw [patch_latex, h] at h2
    simp only [hm, Bool.false_eq_true, if_false, Option.some.injEq] at h2
    subst h2
    constructor
    · rw [lookupFs_writeFs_other _ _ _ _ (fun he => ne_backup texPath he.symm)]
      exact lookupFs_writeFs_same _ _ _
    · exact lookupFs_writeFs_same _ _ _
  · intro hm fs2 h2
    rw [patch_latex, h] at h2
    simp only [hm, if_true, Option.some.injEq] at h2
    subst h2
    constructor
    · exact lookupFs_writeFs_other _ _ _ _ (fun he => ne_backup texPath he.symm)
    · exact lookupFs_writeFs_same _ _ _

/-- Witness: a fresh patch of `orig0` creates `thesis.tex.backup` holding the
original content, and a re-patch of `docW` leaves the backup entry untouched. -/
theorem C6_backup_invariant_witness :
    (∀ fs2, patch_latex cfg0 texP [(texP, orig0)] = some fs2 →
      lookupFs fs2 (texP ++ backup_suffix) = some orig0
      ∧ lookupFs fs2 texP = some (fresh_text cfg0 orig0))
    ∧ (∀ fs2, patch_latex cfg0 texP [(texP, docW)] = some fs2 →
      lookupFs fs2 (texP ++ backup_suffix)
        = lookupFs [(texP, docW)] (texP ++ backup_suffix)
      ∧ lookupFs fs2 texP = some (re_sub_pdfx cfg0 docW)) :=
  ⟨(C6_backup_invariant cfg0 texP [(texP, orig0)] orig0 rfl).1 (by decide),
   (C6_backup_invariant cfg0 texP [(texP, docW)] docW rfl).2 (by decide)⟩

/-! ### C7: the cleanup sweep -/

/-- A sweep whose selected files all succeed removes exactly the selected
files, in directory order, and raises nothing. -/
lemma clean_sweep_ok (failsOn : List Char → Bool) (L : List DirFile)
    (h : ∀ g ∈ L, is_aux g = true → failsOn g.name = false) :
    clean_sweep failsOn L = ((L.filter is_aux).map DirFile.name, false) := by
  induction L with
  | nil => simp [clean_sweep]
  | cons g rest ih =>
    have hrest := ih (fun x hx => h x (List.mem_cons_of_mem _ hx))
    by_cases hg : is_aux g = true
    · have hf := h g (List.mem_cons_self _ _) hg
      simp [clean_sweep, hg, hf, hrest, List.filter_cons]
    · simp [clean_sweep, hg, hrest, List.filter_cons]

/-- The first failing removal ends the loop: the sweep keeps only the removals
made before it and reports the exception. -/
lemma clean_sweep_fail (failsOn : List Char → Bool) (L1 L2 : List DirFile)
    (f : DirFile) (h1 : ∀ g ∈ L1, is_aux g = true → failsOn g.name = false)
    (h2 : is_aux f = true) (h3 : failsOn f.name = true) :
    clean_sweep failsOn (L1 ++ f :: L2)
      = ((L1.filter is_aux).map DirFile.name, true) := by
  induction L1 with
  | nil => simp [clean_sweep, h2, h3]
  | cons g rest ih =>
    have hrest := ih (fun x hx => h1 x (List.mem_cons_of_mem _ hx))
    by_cases hg : is_aux g = true
    · have hf := h1 g (List.mem_cons_self _ _) hg
      simp [clean_sweep, hg, hf, hrest, List.filter_cons]
    · simp [clean_sweep, hg, hrest, List.filter_cons]

/-- C7 counterexample: with a directory of two intermediate files where
removing the first fails, the claim requires the sweep to still remove the
second file and the compiled artifact; the code removes nothing at all,
because the single `try` around the whole loop ends the sweep at the first
exception. -/
theorem C7_counterexample :
    clean_files failsA filesEx "thesis.pdf".toList = ([], true)
    ∧ failsA "b.log".toList = false
    ∧ "b.log".toList ∉ (clean_files failsA filesEx "thesis.pdf".toList).1
    ∧ "thesis.pdf".toList ∉ (clean_files failsA filesEx "thesis.pdf".toList).1 := by
  decide

/-- C7 amended: deletions are not independent: the first failing removal ends
the sweep, so only the intermediate files listed before it are removed and
neither the later intermediate files nor the compiled artifact are attempted;
the exception is caught by the single handler, which reports one aggregate
error while the function returns normally, so the run is not aborted. -/
theorem C7_cleanup_sweep_aborts (failsOn : List Char → Bool)
    (L1 L2 : List DirFile) (f : DirFile) (compiled : List Char)
    (h1 : ∀ g ∈ L1, is_aux g = true → failsOn g.name = false)
    (h2 : is_aux f = true) (h3 : failsOn f.name = true) :
    clean_files failsOn (L1 ++ f :: L2) compiled
      = ((L1.filter is_aux).map DirFile.name, true) := by
  rw [clean_files, clean_sweep_fail failsOn L1 L2 f h1 h2 h3]
  simp

/-- Witness: the sweep aborted by the failing first file removes nothing and
reports the aggregate error. -/
theorem C7_cleanup_sweep_aborts_witness :
    clean_files failsA ([] ++ ⟨"a.aux".toList, ".aux".toList⟩
        :: [⟨"b.log".toList, ".log".toList⟩]) "thesis.pdf".toList
      = ((List.filter is_aux []).map DirFile.name, true) :=
  C7_cleanup_sweep_aborts failsA [] [⟨"b.log".toList, ".log".toList⟩]
    ⟨"a.aux".toList, ".aux".toList⟩ "thesis.pdf".toList
    (by intro g hg; cases hg) (by decide) (by decide)

/-! ### C9: configuration validation -/

/-- C9 counterexample: a configuration requesting verification without a
veraPDF path, with an absent output directory, is rejected only after
`os.makedirs` has created the output directory: the recorded side-effect flag
is `true` at the rejection, contradicting the claim that no file or directory
is created or modified before any such rejection. -/
theorem C9_counterexample :
    latex2pdfa_init "b".toList 1 true none false
      = (Except.error InitErr.missingVerapdf, true) := rfl

/-- C9 amended: an invalid conformance level or version is rejected by an
assertion before any side effect; verification requested without a validator
path still aborts construction, but only after `os.makedirs` has run, so on
that path the output directory is created exactly when it was absent. -/
theorem C9_config_validation (level : List Char) (version : Int) (verify : Bool)
    (vp : Option (List Char)) (present : Bool) :
    (¬ (level = "a".toList ∨ level = "b".toList ∨ level = "u".toList) →
      latex2pdfa_init level version verify vp present
        = (.error .invalidLevel, false))
    ∧ ((level = "a".toList ∨ level = "b".toList ∨ level = "u".toList) →
      ¬ (version = 1 ∨ version = 2 ∨ version = 3) →
      latex2pdfa_init level version verify vp present
        = (.error .invalidVersion, false))
    ∧ ((level = "a".toList ∨ level = "b".toList ∨ level = "u".toList) →
      (version = 1 ∨ version = 2 ∨ version = 3) → verify = true → vp = none →
      latex2pdfa_init level version verify vp present
        = (.error .missingVerapdf, !present)) := by
  refine ⟨?_, ?_, ?_⟩
  · intro h1
    rw [latex2pdfa_init, if_pos h1]
  · intro h1 h2
    rw [latex2pdfa_init, if_neg (fun hc => hc h1), if_pos h2]
  · intro h1 h2 h3 h4
    subst h3
    subst h4
    rw [latex2pdfa_init, if_neg (fun hc => hc h1), if_neg (fun hc => hc h2)]
    simp

/-- Witness: the three rejection paths at concrete configurations. -/
theorem C9_config_validation_witness :
    latex2pdfa_init "x".toList 1 false none true = (.error .invalidLevel, false)
    ∧ latex2pdfa_init "b".toList 7 false none true = (.error .invalidVersion, false)
    ∧ latex2pdfa_init "b".toList 1 true none false = (.error .missingVerapdf, !false) :=
  ⟨(C9_config_validation "x".toList 1 false none true).1 (by decide),
   (C9_config_validation "b".toList 7 false none true).2.1
     (Or.inr (Or.inl rfl)) (by decide),
   (C9_config_validation "b".toList 1 true none false).2.2
     (Or.inr (Or.inl rfl)) (Or.inl rfl) rfl rfl⟩

/-! ### C8: the compliance report parser -/

/-- C8 counterexample: on a report whose validation-report node lacks the
details node, `verify_compliance` raises an uncaught Python `AttributeError`
(`None` has no attribute `get`), a crash, not any typed parse error: no parsed
verdict is produced. -/
theorem C8_counterexample :
    verify_compliance_parse reportMissingDetails = VerifyOutcome.attributeErr
    ∧ ∀ v, verify_compliance_parse reportMissingDetails ≠ VerifyOutcome.parsed v := by
  refine ⟨rfl, fun v h => ?_⟩
  rw [show verify_compliance_parse reportMissingDetails = VerifyOutcome.attributeErr
    from rfl] at h
  exact VerifyOutcome.noConfusion h

/-- C8 amended: on a well-formed report the parser yields the verdict with the
compliant flag (`true` exactly when the compliance attribute equals `true`),
statement, profile name and check counters taken from the report, and a
structurally valid report whose compliance attribute is not `true` yields a
normal non-compliant verdict, not a failure; but when the validation-report
node or the details node is absent the code raises an uncaught
`AttributeError` (a crash) instead of a typed malformed-report parse error. -/
theorem C8_report_parse (root : Xml) :
    (findForest "validationReport" root.children = none →
      verify_compliance_parse root = VerifyOutcome.attributeErr)
    ∧ (∀ summary, findForest "validationReport" root.children = some summary →
        (findForest "details" summary.children = none →
          verify_compliance_parse root = VerifyOutcome.attributeErr)
        ∧ (∀ details, findForest "details" summary.children = some details →
            verify_compliance_parse root = VerifyOutcome.parsed
              { isCompliant := getAttr summary "isCompliant" == some "true"
                statement := getAttr summary "statement"
                profileName := getAttr summary "profileName"
                failedChecks := getAttr details "failedChecks"
                passedChecks := getAttr details "passedChecks" }
            ∧ (getAttr summary "isCompliant" ≠ some "true" →
                ∃ v, verify_compliance_parse root = VerifyOutcome.parsed v
                  ∧ v.isCompliant = false))) := by
  constructor
  · intro h
    simp [verify_compliance_parse, h]
  · intro summary hs
    constructor
    · intro hd
      simp [verify_compliance_parse, hs, hd]
    · intro details hd
      constructor
      · simp [verify_compliance_parse, hs, hd]
      · intro hne
        refine ⟨{ isCompliant := getAttr summary "isCompliant" == some "true"
                  statement := getAttr summary "statement"
                  profileName := getAttr summary "profileName"
                  failedChecks := getAttr details "failedChecks"
                  passedChecks := getAttr details "passedChecks" },
          by simp [verify_compliance_parse, hs, hd], ?_⟩
        simpa using hne

/-- Witness: the parser applied to the concrete well-formed report. -/
theorem C8_report_parse_witness :
    verify_compliance_parse wellFormedReport = VerifyOutcome.parsed
      { isCompliant := getAttr vrNode "isCompliant" == some "true"
        statement := getAttr vrNode "statement"
        profileName := getAttr vrNode "profileName"
        failedChecks := getAttr dtNode "failedChecks"
        passedChecks := getAttr dtNode "passedChecks" } :=
  (((C8_report_parse wellFormedReport).2 vrNode rfl).2 dtNode rfl).1

/-! ### C2: the fresh-patch layout -/

/-- Lines without the keyword contribute themselves, in order, to the body. -/
lemma body_text_no_dc (cfg : Cfg) (L : List (List Char))
    (h : ∀ l ∈ L, hasSub dcPat l = false) (rest : List (List Char)) :
    body_text cfg (L ++ rest) = L.flatten ++ body_text cfg rest := by
  induction L with
  | nil => simp
  | cons x xs ih =>
    have hx := h x (List.mem_cons_self _ _)
    have hxs := ih (fun l hl => h l (List.mem_cons_of_mem _ hl))
    simp [body_text, hx, hxs]

/-- Every keyword line of the tail receives its own copy of the after block. -/
lemma body_text_dc_mem (cfg : Cfg) (L : List (List Char)) (l : List Char)
    (hl : l ∈ L) (hdc : hasSub dcPat l = true) :
    ∃ A B, body_text cfg L = A ++ (l ++ after_block cfg) ++ B := by
  induction L with
  | nil => cases hl
  | cons x xs ih =>
    rcases List.mem_cons.mp hl with he | hm
    · subst he
      exact ⟨[], body_text cfg xs, by simp [body_text, hdc]⟩
    · obtain ⟨A, B, hAB⟩ := ih hm
      by_cases hx : hasSub dcPat x = true
      · exact ⟨x ++ after_block cfg ++ A, B, by simp [body_text, hx, hAB]⟩
      · exact ⟨x ++ A, B, by simp [body_text, hx, hAB]⟩

/-- C2 counterexample: on a source with two keyword lines, the fresh-patch
output equals the layout the claim describes (one after block, after the
first keyword line only) followed by one more copy of the after block,
inserted after the second keyword line; in particular the actual output
differs from the claimed one. -/
theorem C2_counterexample :
    hasSub dcPat orig0_line1 = true
    ∧ hasSub dcPat orig0_line2 = true
    ∧ fresh_text cfg0 orig0 = spec_fresh_text cfg0 orig0 ++ after_block cfg0
    ∧ fresh_text cfg0 orig0 ≠ spec_fresh_text cfg0 orig0 := by
  refine ⟨by decide, by decide, by decide, fun h => ?_⟩
  have h1 : fresh_text cfg0 orig0 = spec_fresh_text cfg0 orig0 ++ after_block cfg0 := by
    decide
  rw [h] at h1
  have h2 := congrArg List.length h1
  simp [List.length_append] at h2
  have h3 : after_block cfg0 ≠ [] := by decide
  exact h3 h2

/-- C2 amended: the fresh-patch operation writes the before-declaration marker
block first, then each original line verbatim, and inserts the
after-declaration marker block immediately after every line containing the
keyword `documentclass`, not only after the first one: the block follows the
first keyword line, and every later keyword line receives a copy as well. -/
theorem C2_fresh_patch_layout (cfg : Cfg) (orig : List Char)
    (L1 : List (List Char)) (line : List Char) (L2 : List (List Char))
    (hsplit : linesOf orig = L1 ++ line :: L2)
    (h1 : ∀ l ∈ L1, hasSub dcPat l = false)
    (h2 : hasSub dcPat line = true) :
    fresh_text cfg orig
      = before_block ++ L1.flatten ++ line ++ after_block cfg ++ body_text cfg L2
    ∧ (∀ l ∈ L2, hasSub dcPat l = true →
        ∃ A B, body_text cfg L2 = A ++ (l ++ after_block cfg) ++ B) := by
  constructor
  · rw [fresh_text, hsplit, body_text_no_dc cfg L1 h1]
    simp [body_text, h2]
  · intro l hl hdc
    exact body_text_dc_mem cfg L2 l hl hdc

/-- Witness: the layout theorem applied to the concrete two-keyword source,
with the second keyword line receiving its own block. -/
theorem C2_fresh_patch_layout_witness :
    (fresh_text cfg0 orig0
      = before_block ++ List.flatten [] ++ orig0_line1 ++ after_block cfg0
          ++ body_text cfg0 [orig0_line2]
    ∧ (∀ l ∈ [orig0_line2], hasSub dcPat l = true →
        ∃ A B, body_text cfg0 [orig0_line2] = A ++ (l ++ after_block cfg0) ++ B)) :=
  C2_fresh_patch_layout cfg0 orig0 [] orig0_line1 [orig0_line2] (by decide)
    (by intro l hl; cases hl) (by decide)

/-! ### C1: occurrence machinery for the re-patch substitution -/

/-- Membership in a position list. -/
lemma mem_poss {pat s : List Char} {k : Nat} :
    k ∈ poss pat s ↔ k < s.length ∧ pat <+: s.drop k := by
  constructor
  · intro h
    rcases List.mem_filter.mp h with ⟨h1, h2⟩
    exact ⟨List.mem_range.mp h1, List.isPrefixOf_iff_prefix.mp h2⟩
  · intro h
    exact List.mem_filter.mpr
      ⟨List.mem_range.mpr h.1, List.isPrefixOf_iff_prefix.mpr h.2⟩

/-- The maximum of a list is one of its elements. -/
lemma natMax_mem {l : List Nat} {m : Nat} (h : natMax l = some m) : m ∈ l := by
  induction l generalizing m with
  | nil => simp [natMax] at h
  | cons k ks ih =>
    rw [natMax] at h
    cases hks : natMax ks with
    | none =>
      rw [hks] at h
      injection h with h
      exact h ▸ List.mem_cons_self _ _
    | some m2 =>
      rw [hks] at h
      injection h with h
      subst h
      rcases max_choice k m2 with hc | hc <;> rw [hc]
      · exact List.mem_cons_self _ _
      · exact List.mem_cons_of_mem _ (ih hks)

/-- A list with no maximum is empty. -/
lemma natMax_eq_nil {l : List Nat} (h : natMax l = none) : l = [] := by
  cases l with
  | nil => rfl
  | cons k ks =>
    rw [natMax] at h
    cases hks : natMax ks <;> rw [hks] at h <;> cases h

/-- The maximum bounds every element. -/
lemma natMax_le {l : List Nat} {m : Nat} (h : natMax l = some m) :
    ∀ x ∈ l, x ≤ m := by
  induction l generalizing m with
  | nil => intro x hx; cases hx
  | cons k ks ih =>
    rw [natMax] at h
    cases hks : natMax ks with
    | none =>
      rw [hks] at h
      injection h with h
      subst h
      intro x hx
      rcases List.mem_cons.mp hx with he | hm
      · exact he.le
      · rw [natMax_eq_nil hks] at hm
        cases hm
    | some m2 =>
      rw [hks] at h
      injection h with h
      subst h
      intro x hx
      rcases List.mem_cons.mp hx with he | hm
      · exact he ▸ le_max_left k m2
      · exact le_trans (ih hks x hm) (le_max_right k m2)

/-- An element bounding the whole list is its maximum. -/
lemma natMax_eq_some {l : List Nat} {m : Nat} (hm : m ∈ l)
    (hle : ∀ x ∈ l, x ≤ m) : natMax l = some m := by
  induction l with
  | nil => cases hm
  | cons k ks ih =>
    rw [natMax]
    cases hks : natMax ks with
    | none =>
      show some k = some m
      rw [natMax_eq_nil hks] at hm
      rcases List.mem_cons.mp hm with he | hm2
      · rw [he]
      · cases hm2
    | some m2 =>
      have h1 : k ≤ m := hle k (List.mem_cons_self _ _)
      have h2 : m2 ≤ m := hle m2 (List.mem_cons_of_mem _ (natMax_mem hks))
      show some (max k m2) = some m
      congr 1
      rcases List.mem_cons.mp hm with he | hmk
      · subst he
        exact max_eq_left h2
      · have h3 : m ≤ m2 := natMax_le hks m hmk
        have h4 : m2 = m := le_antisymm h2 h3
        subst h4
        exact max_eq_right h1

/-- Position lists are strictly increasing. -/
lemma poss_pairwise (pat s : List Char) :
    List.Pairwise (· < ·) (poss pat s) :=
  (List.pairwise_lt_range s.length).filter _

/-- In a strictly increasing list, an element below all others is the head. -/
lemma pairwise_head_min {l : List Nat} {a : Nat}
    (hp : List.Pairwise (· < ·) l) (hmem : a ∈ l) (hmin : ∀ b ∈ l, a ≤ b) :
    ∃ t, l = a :: t := by
  cases l with
  | nil => cases hmem
  | cons x xs =>
    rcases List.mem_cons.mp hmem with he | hm
    · exact ⟨xs, by rw [he]⟩
    · have hx : x < a := (List.pairwise_cons.mp hp).1 a hm
      have hax : a ≤ x := hmin x (List.mem_cons_self _ _)
      omega

/-- On a strictly increasing list, `find?` returns the least element
satisfying the predicate. -/
lemma find_min_of_sorted {p : Nat → Bool} {a b : Nat} {l : List Nat} :
    List.Pairwise (· < ·) l → l.find? p = some a → b ∈ l → p b = true →
      a ≤ b := by
  induction l with
  | nil => intro _ _ hb _; cases hb
  | cons x xs ih =>
    intro hp hf hb hpb
    by_cases hx : p x = true
    · rw [List.find?_cons_of_pos _ hx] at hf
      injection hf with hf
      subst hf
      rcases List.mem_cons.mp hb with he | hm
      · exact he.ge
      · exact le_of_lt ((List.pairwise_cons.mp hp).1 b hm)
    · rw [List.find?_cons_of_neg _ hx] at hf
      rcases List.mem_cons.mp hb with he | hm
      · subst he
        exact absurd hpb hx
      · exact ih (List.pairwise_cons.mp hp).2 hf hm hpb

/-- What a successful `findMatch` means: the end index is six past the last
`{pdfx}` occurrence, the start index is a `usepackage` occurrence eligible for
that end, and no earlier occurrence is eligible. -/
lemma findMatch_elim {s : List Char} {i e : Nat} (h : findMatch s = some (i, e)) :
    ∃ jm, e = jm + 6 ∧ jm ∈ poss qPat s ∧ (∀ j ∈ poss qPat s, j ≤ jm)
      ∧ i ∈ poss uPat s ∧ i + 10 ≤ jm
      ∧ ∀ u ∈ poss uPat s, u + 10 ≤ jm → i ≤ u := by
  rw [findMatch] at h
  split at h
  · cases h
  · rename_i jm hq
    split at h
    · cases h
    · rename_i i2 hf
      simp only [Option.some.injEq, Prod.mk.injEq] at h
      obtain ⟨h1, h2⟩ := h
      subst h1
      have hpred := List.find?_some hf
      simp only [decide_eq_true_eq] at hpred
      refine ⟨jm, h2.symm, natMax_mem hq, natMax_le hq,
        List.mem_of_find?_eq_some hf, hpred, fun u hu hup => ?_⟩
      exact find_min_of_sorted (poss_pairwise uPat s) hf hu (decide_eq_true hup)

/-- The text right of a match holds no `{pdfx}` occurrence at all. -/
lemma poss_q_drop_eq_nil {s : List Char} {i e : Nat}
    (h : findMatch s = some (i, e)) : poss qPat (s.drop e) = [] := by
  obtain ⟨jm, he, hjm, hjle, -, -, -⟩ := findMatch_elim h
  rw [List.eq_nil_iff_forall_not_mem]
  intro k hk
  rcases mem_poss.mp hk with ⟨-, hk2⟩
  rw [List.drop_drop] at hk2
  have hq6 : qPat.length = 6 := rfl
  have hlen2 := hk2.length_le
  rw [List.length_drop] at hlen2
  have hlen : e + k < s.length := by omega
  have hmem : e + k ∈ poss qPat s := mem_poss.mpr ⟨hlen, hk2⟩
  have := hjle _ hmem
  omega

/-- Simple bounds from a successful match. -/
lemma findMatch_bounds {s : List Char} {i e : Nat}
    (h : findMatch s = some (i, e)) : i < s.length ∧ 6 ≤ e ∧ 0 < s.length := by
  obtain ⟨jm, he, hjm, -, hi, -, -⟩ := findMatch_elim h
  have h1 := (mem_poss.mp hi).1
  have h2 := (mem_poss.mp hjm).1
  omega

/-- Fuel irrelevance for the substitution scan: any fuel beyond the text
length gives the same result. -/
lemma subSegFuel_congr (cfg : Cfg) :
    ∀ f g (s : List Char), s.length < f → s.length < g →
      subSegFuel cfg f s = subSegFuel cfg g s := by
  intro f
  induction f with
  | zero => intro g s hf hg; omega
  | succ f ih =>
    intro g s hf hg
    cases g with
    | zero => omega
    | succ g =>
      rw [subSegFuel, subSegFuel]
      cases hm : findMatch s with
      | none => rfl
      | some ie =>
        obtain ⟨i, e⟩ := ie
        obtain ⟨-, he, hs⟩ := findMatch_bounds hm
        have hd : (s.drop e).length = s.length - e := List.length_drop e s
        exact congrArg (fun x => s.take i ++ pdfx_args cfg ++ x)
          (ih g (s.drop e) (by omega) (by omega))

/-- A segment without a match is unchanged by the substitution. -/
lemma subSeg_eq_none (cfg : Cfg) {s : List Char} (h : findMatch s = none) :
    subSeg cfg s = s := by
  rw [subSeg, subSegFuel, h]

/-- A segment with a match is changed exactly once: the matched span is
replaced and the remainder, which holds no further `{pdfx}`, is kept. -/
lemma subSeg_eq_some (cfg : Cfg) {s : List Char} {i e : Nat}
    (h : findMatch s = some (i, e)) :
    subSeg cfg s = s.take i ++ pdfx_args cfg ++ s.drop e := by
  rw [subSeg, subSegFuel, h]
  show s.take i ++ pdfx_args cfg ++ subSegFuel cfg s.length (s.drop e)
    = s.take i ++ pdfx_args cfg ++ s.drop e
  have hnone : findMatch (s.drop e) = none := by
    rw [findMatch, poss_q_drop_eq_nil h]
    rfl
  obtain ⟨-, he, hs⟩ := findMatch_bounds h
  have hd : (s.drop e).length = s.length - e := List.length_drop e s
  rw [subSegFuel_congr cfg s.length ((s.drop e).length + 1) (s.drop e)
    (by omega) (by omega)]
  rw [show subSegFuel cfg ((s.drop e).length + 1) (s.drop e)
    = subSeg cfg (s.drop e) from rfl]
  rw [subSeg_eq_none cfg hnone]

/-- Splitting a prefix of an append: it fits inside the left part, or it
covers the left part and continues into the right part. -/
lemma prefix_append_or {pat x y : List Char} (h : pat <+: x ++ y) :
    (pat.length ≤ x.length ∧ pat <+: x)
    ∨ (x.length < pat.length ∧ pat.take x.length = x
        ∧ pat.drop x.length <+: y) := by
  by_cases hle : pat.length ≤ x.length
  · exact Or.inl ⟨hle,
      List.prefix_of_prefix_length_le h (List.prefix_append x y) hle⟩
  · push_neg at hle
    rcases h with ⟨t, ht⟩
    refine Or.inr ⟨hle, ?_, ?_⟩
    · calc pat.take x.length
          = (pat ++ t).take x.length := by
            rw [List.take_append_eq_append_take,
              Nat.sub_eq_zero_of_le (le_of_lt hle), List.take_zero,
              List.append_nil]
        _ = (x ++ y).take x.length := by rw [ht]
        _ = x := List.take_left x y
    · have h1 : (pat ++ t).drop x.length = pat.drop x.length ++ t := by
        rw [List.drop_append_eq_append_drop,
          Nat.sub_eq_zero_of_le (le_of_lt hle), List.drop_zero]
      have h2 : (x ++ y).drop x.length = y := List.drop_left x y
      exact ⟨t, by rw [← h1, ht, h2]⟩

/-- Dropping past the left part of an append. -/
lemma drop_append_ge {x y : List Char} {k : Nat} (h : x.length ≤ k) :
    (x ++ y).drop k = y.drop (k - x.length) := by
  rw [List.drop_append_eq_append_drop, List.drop_eq_nil_of_le h,
    List.nil_append]

/-- Dropping within the left part of an append. -/
lemma drop_append_lt {x y : List Char} {k : Nat} (h : k ≤ x.length) :
    (x ++ y).drop k = x.drop k ++ y := by
  rw [List.drop_append_eq_append_drop, Nat.sub_eq_zero_of_le h, List.drop_zero]

/-- The replacement text is 22 characters long. -/
lemma pdfx_args_length (cfg : Cfg) : (pdfx_args cfg).length = 22 := rfl

/-- The replacement text ends with `{pdfx}` starting at offset 16. -/
lemma pdfx_args_drop_16 (cfg : Cfg) : (pdfx_args cfg).drop 16 = qPat := rfl

/-- The replacement text starts with `usepackage`. -/
lemma uPat_prefix_pdfx_args (cfg : Cfg) : uPat <+: pdfx_args cfg :=
  ⟨"[a-".toList ++ [cfg.version, cfg.level] ++ "]{pdfx}".toList, rfl⟩

/-- Beyond offset 15 the replacement text is the fixed tail `]{pdfx}`. -/
lemma pdfx_args_drop_ge15 (cfg : Cfg) {m : Nat} (h : 15 ≤ m) :
    (pdfx_args cfg).drop m = ("]{pdfx}".toList).drop (m - 15) := by
  have h13 : ("usepackage[a-".toList).length = 13 := rfl
  have h2 : ([cfg.version, cfg.level] : List Char).length = 2 := rfl
  rw [pdfx_args, List.append_assoc,
    drop_append_ge (x := "usepackage[a-".toList)
      (le_trans (le_of_eq h13) (by omega)),
    h13, drop_append_ge (x := [cfg.version, cfg.level])
      (le_trans (le_of_eq h2) (by omega)),
    h2, show m - 13 - 2 = m - 15 from by omega]

/-- Up to offset 13 the replacement text is the fixed head `usepackage[a-`. -/
lemma pdfx_args_take_le13 (cfg : Cfg) {n : Nat} (h : n ≤ 13) :
    (pdfx_args cfg).take n = ("usepackage[a-".toList).take n := by
  have h13 : ("usepackage[a-".toList).length = 13 := rfl
  rw [pdfx_args, List.append_assoc, List.take_append_eq_append_take,
    Nat.sub_eq_zero_of_le (le_trans h (le_of_eq h13.symm)), List.take_zero,
    List.append_nil]

/-- No proper prefix of `{pdfx}` equals a tail piece of the replacement's
`]{pdfx}` suffix: the match cannot straddle the boundary between the
replacement and the remainder. -/
lemma q_take_ne_tail : ∀ m, 17 ≤ m → m ≤ 21 →
    qPat.take (22 - m) ≠ ("]{pdfx}".toList).drop (m - 15) := by
  decide

/-- No proper nonempty suffix of `usepackage` is a prefix of the replacement
text: the pattern literal has no border against the replacement's head. -/
lemma u_drop_ne_head : ∀ m, 1 ≤ m → m ≤ 9 →
    uPat.drop m ≠ ("usepackage[a-".toList).take (10 - m) := by
  decide

/-- After replacing the matched span of a segment, the segment still matches
at the same start index, and the greedy end is now the end of the
replacement's own `{pdfx}`. -/
lemma findMatch_subst (cfg : Cfg) {s : List Char} {i e : Nat}
    (h : findMatch s = some (i, e)) :
    findMatch (s.take i ++ pdfx_args cfg ++ s.drop e) = some (i, i + 22) := by
  obtain ⟨jm, he, hjm, hjle, hiu, hile, himin⟩ := findMatch_elim h
  have hilen : i < s.length := (mem_poss.mp hiu).1
  have hjlen : jm < s.length := (mem_poss.mp hjm).1
  have halen : (s.take i).length = i := by rw [List.length_take]; omega
  have hrlen : (pdfx_args cfg).length = 22 := rfl
  have hq6 : qPat.length = 6 := rfl
  have hu10 : uPat.length = 10 := rfl
  have hqnil := poss_q_drop_eq_nil h
  set n := s.take i ++ pdfx_args cfg ++ s.drop e with hn
  have hnlen : n.length = i + (22 + (s.drop e).length) := by
    rw [hn, List.length_append, List.length_append, halen, hrlen]
    omega
  have hdrop16 : n.drop (i + 16) = qPat ++ s.drop e := by
    rw [hn]
    rw [drop_append_lt (x := s.take i ++ pdfx_args cfg)
      (by rw [List.length_append, halen, hrlen]; omega)]
    rw [drop_append_ge (x := s.take i) (by rw [halen]; omega)]
    rw [halen, show i + 16 - i = 16 from by omega, pdfx_args_drop_16]
  have hq16mem : (i + 16) ∈ poss qPat n := by
    apply mem_poss.mpr
    refine ⟨by omega, ?_⟩
    rw [hdrop16]
    exact List.prefix_append qPat _
  have hqle2 : ∀ k ∈ poss qPat n, k ≤ i + 16 := by
    intro k hk
    rcases mem_poss.mp hk with ⟨hk1, hk2⟩
    by_cases hki : k < i
    · omega
    · push_neg at hki
      have hk2b : qPat <+: (pdfx_args cfg ++ s.drop e).drop (k - i) := by
        rw [hn, List.append_assoc] at hk2
        rwa [drop_append_ge (x := s.take i) (by rw [halen]; omega), halen]
          at hk2
      by_cases hk22 : 22 ≤ k - i
      · rw [drop_append_ge (x := pdfx_args cfg) (by rw [hrlen]; omega),
          hrlen] at hk2b
        have hmem : (k - i - 22) ∈ poss qPat (s.drop e) := by
          apply mem_poss.mpr
          refine ⟨?_, hk2b⟩
          have := hk2b.length_le
          rw [List.length_drop] at this
          omega
        rw [hqnil] at hmem
        cases hmem
      · push_neg at hk22
        rw [drop_append_lt (x := pdfx_args cfg) (by rw [hrlen]; omega)]
          at hk2b
        rcases prefix_append_or hk2b with ⟨hl1, -⟩ | ⟨hl1, hEq, -⟩
        · rw [List.length_drop, hrlen, hq6] at hl1
          omega
        · exfalso
          rw [List.length_drop, hrlen] at hl1 hEq
          rw [pdfx_args_drop_ge15 cfg (by omega)] at hEq
          exact q_take_ne_tail (k - i) (by omega) (by omega) hEq
  have hqmax : natMax (poss qPat n) = some (i + 16) := natMax_eq_some hq16mem hqle2
  have hu_ge : ∀ u ∈ poss uPat n, i ≤ u := by
    intro u hu
    by_contra hlt
    push_neg at hlt
    rcases mem_poss.mp hu with ⟨hu1, hu2⟩
    rw [hn, List.append_assoc,
      drop_append_lt (x := s.take i) (by rw [halen]; omega)] at hu2
    rcases prefix_append_or hu2 with ⟨hl1, hpu⟩ | ⟨hl1, hEq, hrest⟩
    · rw [List.length_drop, halen, hu10] at hl1
      rw [List.drop_take] at hpu
      have hpu2 : uPat <+: s.drop u := hpu.trans (List.take_prefix _ _)
      have humem : u ∈ poss uPat s := mem_poss.mpr ⟨by omega, hpu2⟩
      have := himin u humem (by omega)
      omega
    · rw [List.length_drop, halen] at hl1 hEq hrest
      rw [hu10] at hl1
      rcases prefix_append_or hrest with ⟨-, hpr⟩ | ⟨hl2, -, -⟩
      · have hEq2 := List.prefix_iff_eq_take.mp hpr
        rw [List.length_drop, hu10] at hEq2
        rw [pdfx_args_take_le13 cfg (by omega)] at hEq2
        exact u_drop_ne_head (i - u) (by omega) (by omega) hEq2
      · rw [List.length_drop, hu10, hrlen] at hl2
        omega
  have hiu2 : i ∈ poss uPat n := by
    apply mem_poss.mpr
    refine ⟨by omega, ?_⟩
    rw [hn, List.append_assoc, drop_append_ge (x := s.take i) (le_of_eq halen),
      halen, Nat.sub_self, List.drop_zero]
    exact (uPat_prefix_pdfx_args cfg).trans (List.prefix_append _ _)
  have hfind : (poss uPat n).find? (fun u => decide (u + 10 ≤ i + 16)) = some i := by
    obtain ⟨t, ht⟩ := pairwise_head_min (poss_pairwise uPat n) hiu2 hu_ge
    rw [ht]
    apply List.find?_cons_of_pos
    exact decide_eq_true (by omega)
  rw [findMatch, hqmax]
  show (match (poss uPat n).find? (fun u => decide (u + 10 ≤ i + 16)) with
    | none => none
    | some u => some (u, i + 16 + 6)) = some (i, i + 22)
  rw [hfind]

/-- The substitution pass is idempotent on every segment. -/
lemma subSeg_idem (cfg : Cfg) (s : List Char) :
    subSeg cfg (subSeg cfg s) = subSeg cfg s := by
  cases h : findMatch s with
  | none => rw [subSeg_eq_none cfg h, subSeg_eq_none cfg h]
  | some ie =>
    obtain ⟨i, e⟩ := ie
    rw [subSeg_eq_some cfg h, subSeg_eq_some cfg (findMatch_subst cfg h)]
    obtain ⟨jm, he, hjm, -, hiu, -, -⟩ := findMatch_elim h
    have hilen : i < s.length := (mem_poss.mp hiu).1
    have halen : (s.take i).length = i := by rw [List.length_take]; omega
    have hrlen : (pdfx_args cfg).length = 22 := rfl
    have htake : (s.take i ++ pdfx_args cfg ++ s.drop e).take i = s.take i := by
      have h1 := List.take_left (s.take i) (pdfx_args cfg ++ s.drop e)
      rw [halen] at h1
      rw [List.append_assoc]
      exact h1
    have hdrop : (s.take i ++ pdfx_args cfg ++ s.drop e).drop (i + 22)
        = s.drop e := by
      have h1 := List.drop_left (s.take i ++ pdfx_args cfg) (s.drop e)
      rw [List.length_append, halen, hrlen] at h1
      exact h1
    rw [htake, hdrop]

/-- Splitting never yields an empty segment list. -/
lemma splitNl_ne_nil (t : List Char) : splitNl t ≠ [] := by
  cases t with
  | nil => simp [splitNl]
  | cons c rest =>
    rw [splitNl]
    split
    · simp
    · split <;> simp

/-- Segments contain no newline. -/
lemma splitNl_no_nl (t : List Char) : ∀ seg ∈ splitNl t, '\n' ∉ seg := by
  induction t with
  | nil =>
    intro seg hseg
    rw [splitNl] at hseg
    rcases List.mem_cons.mp hseg with he | hm
    · subst he; simp
    · cases hm
  | cons c rest ih =>
    intro seg hseg
    rw [splitNl] at hseg
    by_cases h : c = '\n'
    · rw [if_pos h] at hseg
      rcases List.mem_cons.mp hseg with he | hm
      · subst he; simp
      · exact ih seg hm
    · rw [if_neg h] at hseg
      cases hs : splitNl rest with
      | nil => exact absurd hs (splitNl_ne_nil rest)
      | cons s0 ss =>
        rw [hs] at hseg
        rcases List.mem_cons.mp hseg with he | hm
        · subst he
          intro hmem
          rcases List.mem_cons.mp hmem with he2 | hm2
          · exact h he2.symm
          · exact ih s0 (hs ▸ List.mem_cons_self _ _) hm2
        · exact ih seg (hs ▸ List.mem_cons_of_mem _ hm)

/-- Joining undoes splitting. -/
lemma joinNl_splitNl (t : List Char) : joinNl (splitNl t) = t := by
  induction t with
  | nil => rfl
  | cons c rest ih =>
    rw [splitNl]
    by_cases h : c = '\n'
    · rw [if_pos h]
      cases hs : splitNl rest with
      | nil => exact absurd hs (splitNl_ne_nil rest)
      | cons s0 ss =>
        show [] ++ '\n' :: joinNl (s0 :: ss) = c :: rest
        rw [List.nil_append, h, ← hs, ih]
    · rw [if_neg h]
      cases hs : splitNl rest with
      | nil => exact absurd hs (splitNl_ne_nil rest)
      | cons s0 ss =>
        cases ss with
        | nil =>
          show c :: s0 = c :: rest
          have h2 := ih
          rw [hs] at h2
          rw [show joinNl [s0] = s0 from rfl] at h2
          rw [h2]
        | cons s1 ss2 =>
          show (c :: s0) ++ '\n' :: joinNl (s1 :: ss2) = c :: rest
          have h2 := ih
          rw [hs] at h2
          rw [show joinNl (s0 :: s1 :: ss2)
            = s0 ++ '\n' :: joinNl (s1 :: ss2) from rfl] at h2
          rw [List.cons_append, h2]

/-- A newline-free text is one segment. -/
lemma splitNl_single {x : List Char} (h : '\n' ∉ x) : splitNl x = [x] := by
  induction x with
  | nil => rfl
  | cons c cs ih =>
    rw [splitNl]
    have hc : c ≠ '\n' := fun he => h (he ▸ List.mem_cons_self _ _)
    rw [if_neg hc, ih (fun hm => h (List.mem_cons_of_mem _ hm))]

/-- Splitting after a leading newline-free piece and a newline. -/
lemma splitNl_append_nl {x : List Char} (t : List Char) (h : '\n' ∉ x) :
    splitNl (x ++ '\n' :: t) = x :: splitNl t := by
  induction x with
  | nil => rw [List.nil_append, splitNl, if_pos rfl]
  | cons c cs ih =>
    have hc : c ≠ '\n' := fun he => h (he ▸ List.mem_cons_self _ _)
    rw [List.cons_append, splitNl, if_neg hc,
      ih (fun hm => h (List.mem_cons_of_mem _ hm))]

/-- Splitting undoes joining on nonempty lists of newline-free segments. -/
lemma splitNl_joinNl (L : List (List Char)) (hne : L ≠ [])
    (h : ∀ seg ∈ L, '\n' ∉ seg) : splitNl (joinNl L) = L := by
  induction L with
  | nil => exact absurd rfl hne
  | cons x xs ih =>
    cases xs with
    | nil =>
      show splitNl x = [x]
      exact splitNl_single (h x (List.mem_cons_self _ _))
    | cons y ys =>
      show splitNl (x ++ '\n' :: joinNl (y :: ys)) = x :: y :: ys
      rw [splitNl_append_nl _ (h x (List.mem_cons_self _ _))]
      rw [ih (by simp) (fun seg hseg => h seg (List.mem_cons_of_mem _ hseg))]

/-- The substitution keeps newline-free segments newline free (the
replacement itself is newline free for any valid configuration). -/
lemma subSeg_no_nl (cfg : Cfg) (hv : cfg.version ≠ '\n') (hl : cfg.level ≠ '\n')
    {s : List Char} (h : '\n' ∉ s) : '\n' ∉ subSeg cfg s := by
  cases hm : findMatch s with
  | none => rw [subSeg_eq_none cfg hm]; exact h
  | some ie =>
    obtain ⟨i, e⟩ := ie
    rw [subSeg_eq_some cfg hm]
    intro hmem
    rcases List.mem_append.mp hmem with h1 | h2
    · rcases List.mem_append.mp h1 with h1a | h1b
      · exact h (List.take_subset _ _ h1a)
      · rw [pdfx_args] at h1b
        rcases List.mem_append.mp h1b with h2a | h2b
        · rcases List.mem_append.mp h2a with h3a | h3b
          · revert h3a; decide
          · rcases List.mem_cons.mp h3b with he | hm2
            · exact hv he.symm
            · rcases List.mem_cons.mp hm2 with he2 | h0
              · exact hl he2.symm
              · cases h0
        · revert h2b; decide
    · exact h (List.drop_subset _ _ h2)

/-- Splitting the substituted text gives the per-segment substitutions. -/
lemma splitNl_re_sub (cfg : Cfg) (hv : cfg.version ≠ '\n')
    (hl : cfg.level ≠ '\n') (t : List Char) :
    splitNl (re_sub_pdfx cfg t) = (splitNl t).map (subSeg cfg) := by
  rw [re_sub_pdfx]
  apply splitNl_joinNl
  · intro hmap
    exact splitNl_ne_nil t (List.map_eq_nil_iff.mp hmap)
  · intro seg hseg
    rcases List.mem_map.mp hseg with ⟨s0, hs0, he⟩
    exact he ▸ subSeg_no_nl cfg hv hl (splitNl_no_nl t s0 hs0)

/-- The whole-text substitution is idempotent. -/
lemma re_sub_pdfx_idem (cfg : Cfg) (hv : cfg.version ≠ '\n')
    (hl : cfg.level ≠ '\n') (t : List Char) :
    re_sub_pdfx cfg (re_sub_pdfx cfg t) = re_sub_pdfx cfg t := by
  conv_lhs => rw [re_sub_pdfx, splitNl_re_sub cfg hv hl t, List.map_map]
  rw [re_sub_pdfx]
  congr 1
  apply List.map_congr_left
  intro s hs
  exact subSeg_idem cfg s

/-- The marker line holds no `{pdfx}`, so it never matches. -/
lemma findMatch_marker_line : findMatch marker_line = none := by decide

/-- A changed segment contains the letter `u` of the inserted replacement. -/
lemma u_mem_subSeg {cfg : Cfg} {s : List Char} {i e : Nat}
    (h : findMatch s = some (i, e)) : 'u' ∈ subSeg cfg s := by
  rw [subSeg_eq_some cfg h]
  apply List.mem_append.mpr
  left
  apply List.mem_append.mpr
  right
  rw [pdfx_args]
  exact List.mem_append.mpr (Or.inl (List.mem_append.mpr (Or.inl (by decide))))

/-- The substitution fixes the marker line and never produces it from another
segment (a changed segment contains `u`, the marker line does not). -/
lemma subSeg_marker_line (cfg : Cfg) (s : List Char) :
    (subSeg cfg s == marker_line) = (s == marker_line) := by
  by_cases hs : s = marker_line
  · subst hs
    rw [subSeg_eq_none cfg findMatch_marker_line]
  · cases hm : findMatch s with
    | none => rw [subSeg_eq_none cfg hm]
    | some ie =>
      obtain ⟨i, e⟩ := ie
      have hu : 'u' ∈ subSeg cfg s := u_mem_subSeg hm
      have hne : subSeg cfg s ≠ marker_line := by
        intro he
        rw [he] at hu
        revert hu
        decide
      simp [beq_iff_eq, hne, hs]

/-- The number of marker lines is unchanged by the substitution. -/
lemma countP_marker_map (cfg : Cfg) (L : List (List Char)) :
    (L.map (subSeg cfg)).countP (fun seg => seg == marker_line)
      = L.countP (fun seg => seg == marker_line) := by
  rw [List.countP_map]
  apply List.countP_congr
  intro s hs
  simp only [Function.comp_apply, subSeg_marker_line]

/-- C1 counterexample: the re-patch substitution is global, not targeted.  On
`docA` the sentinel is present but the pdfx pattern only occurs inside a body
comment line, which the patch rewrites, changing bytes that are not the
after-declaration directive.  On `docB` the only sentinel occurrence lies
inside the matched span, so the substitution erases it and the second patch
call takes the fresh-patch path instead of converging: the source file's
content changes again. -/
theorem C1_counterexample :
    (has_marker docA = true
      ∧ re_sub_pdfx cfg0 docA = "latex2pdfa\n%usepackage[a-1b]{pdfx}!\n".toList
      ∧ re_sub_pdfx cfg0 docA ≠ docA)
    ∧ (has_marker docB = true
      ∧ has_marker (re_sub_pdfx cfg0 docB) = false
      ∧ ∃ fs1 fs2, patch_latex cfg0 texP fsB = some fs1
          ∧ patch_latex cfg0 texP fs1 = some fs2
          ∧ lookupFs fs2 texP ≠ lookupFs fs1 texP) := by
  constructor
  · exact ⟨by decide, by decide, by decide⟩
  · exact ⟨by decide, by decide, _, _, rfl, rfl, by decide⟩

/-- C1 amended: on a sentinel-carrying document the re-patch path performs the
global substitution `re.sub('usepackage.*{pdfx}', pdfx_args, text)` and only
that: every line without a pattern match is byte-for-byte unchanged; each
matched span (the leftmost `usepackage` of a line through the last `{pdfx}`
of that line) is replaced by the configuration's directive parameters; no
marker block is re-inserted (the marker-line count is preserved); the
substitution is idempotent; and a second patch call leaves the file system
unchanged whenever the substituted document still contains the sentinel
(which a real marker block guarantees, since marker lines are preserved). -/
theorem C1_repatch_targeted (cfg : Cfg)
    (hv : cfg.version = '1' ∨ cfg.version = '2' ∨ cfg.version = '3')
    (hl : cfg.level = 'a' ∨ cfg.level = 'b' ∨ cfg.level = 'u')
    (texPath : List Char) (fs : Fs) (content : List Char)
    (hc : lookupFs fs texPath = some content)
    (hm : has_marker content = true) :
    patch_latex cfg texPath fs
      = some (writeFs fs texPath (re_sub_pdfx cfg content))
    ∧ splitNl (re_sub_pdfx cfg content) = (splitNl content).map (subSeg cfg)
    ∧ (∀ seg ∈ splitNl content, findMatch seg = none → subSeg cfg seg = seg)
    ∧ (∀ seg ∈ splitNl content, ∀ i e, findMatch seg = some (i, e) →
        subSeg cfg seg = seg.take i ++ pdfx_args cfg ++ seg.drop e)
    ∧ (splitNl (re_sub_pdfx cfg content)).countP (fun seg => seg == marker_line)
        = (splitNl content).countP (fun seg => seg == marker_line)
    ∧ re_sub_pdfx cfg (re_sub_pdfx cfg content) = re_sub_pdfx cfg content
    ∧ (has_marker (re_sub_pdfx cfg content) = true →
        patch_latex cfg texPath (writeFs fs texPath (re_sub_pdfx cfg content))
          = some (writeFs fs texPath (re_sub_pdfx cfg content))) := by
  have hvn : cfg.version ≠ '\n' := by rcases hv with h | h | h <;> rw [h] <;> decide
  have hln : cfg.level ≠ '\n' := by rcases hl with h | h | h <;> rw [h] <;> decide
  refine ⟨?_, splitNl_re_sub cfg hvn hln content, ?_, ?_, ?_,
    re_sub_pdfx_idem cfg hvn hln content, ?_⟩
  · simp only [patch_latex, hc, hm, if_true]
  · intro seg hseg hnone
    exact subSeg_eq_none cfg hnone
  · intro seg hseg i e hsome
    exact subSeg_eq_some cfg hsome
  · rw [splitNl_re_sub cfg hvn hln content]
    exact countP_marker_map cfg _
  · intro hm2
    simp only [patch_latex, lookupFs_writeFs_same, hm2, if_true,
      re_sub_pdfx_idem cfg hvn hln content, writeFs_writeFs_same]

/-- Witness: the amended statement at the concrete already-patched document
`docW` in a one-file file system. -/
theorem C1_repatch_targeted_witness :
    patch_latex cfg0 texP [(texP, docW)]
      = some (writeFs [(texP, docW)] texP (re_sub_pdfx cfg0 docW))
    ∧ splitNl (re_sub_pdfx cfg0 docW) = (splitNl docW).map (subSeg cfg0)
    ∧ (∀ seg ∈ splitNl docW, findMatch seg = none → subSeg cfg0 seg = seg)
    ∧ (∀ seg ∈ splitNl docW, ∀ i e, findMatch seg = some (i, e) →
        subSeg cfg0 seg = seg.take i ++ pdfx_args cfg0 ++ seg.drop e)
    ∧ (splitNl (re_sub_pdfx cfg0 docW)).countP (fun seg => seg == marker_line)
        = (splitNl docW).countP (fun seg => seg == marker_line)
    ∧ re_sub_pdfx cfg0 (re_sub_pdfx cfg0 docW) = re_sub_pdfx cfg0 docW
    ∧ (has_marker (re_sub_pdfx cfg0 docW) = true →
        patch_latex cfg0 texP (writeFs [(texP, docW)] texP (re_sub_pdfx cfg0 docW))
          = some (writeFs [(texP, docW)] texP (re_sub_pdfx cfg0 docW))) :=
  C1_repatch_targeted cfg0 (Or.inl rfl) (Or.inr (Or.inl rfl)) texP
    [(texP, docW)] docW rfl (by decide)
